import Mathlib

/-!
Verification of the in-place module hot-reloading engine of the `etils`
repository (`etils/ecolab/cell_autoreload.py` and
`etils/ecolab/inplace_reload.py`).

The Python code is shallowly embedded: dictionaries become association
lists, `sys.modules` / file metadata become explicit environments, object
identity becomes heap addresses, and weak references become addresses
paired with a liveness oracle.  Each definition mirrors one Python
function; theorems at the end settle the specification claims.
-/

namespace Etils

/-- Lookup in an association list: models Python `dict.get(key)`
(first matching key wins, which agrees with `dict` since keys are unique). -/
def lookupA {α : Type} (l : List (String × α)) (k : String) : Option α :=
  (l.find? (fun p => p.1 = k)).map Prod.snd

/-- Update an association list: models Python `dict[key] = value`. -/
def setA {α : Type} (l : List (String × α)) (k : String) (v : α) : List (String × α) :=
  (k, v) :: l.filter (fun p => ¬ p.1 = k)

theorem lookupA_nil {α : Type} (k : String) : lookupA ([] : List (String × α)) k = none := rfl

theorem lookupA_cons {α : Type} (p : String × α) (l : List (String × α)) (k : String) :
    lookupA (p :: l) k = if p.1 = k then some p.2 else lookupA l k := by
  by_cases h : p.1 = k <;> simp [lookupA, List.find?, h]

theorem lookupA_setA_same {α : Type} (l : List (String × α)) (k : String) (v : α) :
    lookupA (setA l k v) k = some v := by
  simp [setA, lookupA_cons]

theorem lookupA_filter_ne {α : Type} (l : List (String × α)) (k k' : String)
    (h : k' ≠ k) : lookupA (l.filter (fun p => ¬ p.1 = k)) k' = lookupA l k' := by
  induction l with
  | nil => rfl
  | cons p rest ih =>
    by_cases hp : p.1 = k
    · rw [List.filter_cons, if_neg (by simp [hp]), lookupA_cons,
        if_neg (fun hk => h (hp.symm.trans hk).symm)]
      exact ih
    · rw [List.filter_cons, if_pos (by simp [hp]), lookupA_cons, lookupA_cons, ih]

theorem lookupA_setA_other {α : Type} (l : List (String × α)) (k k' : String) (v : α)
    (h : k' ≠ k) : lookupA (setA l k v) k' = lookupA l k' := by
  simp only [setA, lookupA_cons]
  rw [if_neg (fun hh => h hh.symm), lookupA_filter_ne _ _ _ h]

/-! ## Staleness tracker (`cell_autoreload.py`)

`_get_last_module_update` resolves a module's backing file and stats it;
the first loop of `ModuleReloader._pre_run_cell_maybe_reload` compares the
result against the stored `_last_updates` entry. -/

/-- The facts about one module that `_get_last_module_update` consults:
whether `sys.modules` holds it, its `__name__`, its `__file__` (none models
both a missing attribute and a `None`/empty value), and the result of
`stat` on that file (`none` models an `OSError`).  Modification times are
modelled as integers. -/
structure ModuleState where
  loaded : Bool
  name : String
  file : Option String
  statMtime : Option Int
deriving DecidableEq

/-- Embedding of `_get_last_module_update` (cell_autoreload.py lines 248-265). -/
def getLastModuleUpdate (m : ModuleState) : Option Int :=
  if !m.loaded then none
  else if m.name = "__main__" then none
  else
    match m.file with
    | none => none
    | some f => if f = "" then none else m.statMtime

/-- Embedding of the dirty-module detection loop of
`ModuleReloader._pre_run_cell_maybe_reload` (cell_autoreload.py lines
184-193).  `env` gives each module's current state, `names` is
`module_utils.get_module_names(self.reload)`, and `last` is the stored
`self._last_updates` dictionary (whose values may themselves be `None`,
hence `Option Int`; `dict.get` flattens a missing key and a stored `None`
into the same `none`).  Returns the dirty set (as a list) and the updated
`_last_updates` store. -/
def checkDirty (env : String → ModuleState) :
    List String → List (String × Option Int) → List String × List (String × Option Int)
  | [], last => ([], last)
  | m :: ms, last =>
    let prev : Option Int := (lookupA last m).join
    let new : Option Int := getLastModuleUpdate (env m)
    let dirty : Bool :=
      prev.isNone ||
        (match new, prev with
         | some n, some p => decide (p < n)
         | _, _ => false)
    let rest := checkDirty env ms (setA last m new)
    (if dirty then m :: rest.1 else rest.1, rest.2)

/-- The condition under which the loop marks a module dirty. -/
def DirtyCond (env : String → ModuleState) (last : List (String × Option Int))
    (m : String) : Prop :=
  (lookupA last m).join = none ∨
    ∃ n p, getLastModuleUpdate (env m) = some n ∧ (lookupA last m).join = some p ∧ p < n

theorem checkDirty_subset (env : String → ModuleState) (names : List String)
    (last : List (String × Option Int)) :
    ∀ m ∈ (checkDirty env names last).1, m ∈ names := by
  induction names generalizing last with
  | nil => simp [checkDirty]
  | cons hd tl ih =>
    intro m hm
    simp only [checkDirty] at hm
    by_cases hd' :
        ((lookupA last hd).join.isNone ||
          (match getLastModuleUpdate (env hd), (lookupA last hd).join with
           | some n, some p => decide (p < n)
           | _, _ => false)) = true
    · rw [if_pos hd'] at hm
      rcases List.mem_cons.mp hm with h | h
      · exact h ▸ List.mem_cons_self _ _
      · exact List.mem_cons_of_mem _ (ih _ _ h)
    · rw [if_neg hd'] at hm
      exact List.mem_cons_of_mem _ (ih _ _ hm)

theorem checkDirty_store_not_mem (env : String → ModuleState) (names : List String)
    (last : List (String × Option Int)) (m : String) (hm : m ∉ names) :
    lookupA (checkDirty env names last).2 m = lookupA last m := by
  induction names generalizing last with
  | nil => rfl
  | cons hd tl ih =>
    simp only [checkDirty]
    have hne : m ≠ hd := fun h => hm (h ▸ List.mem_cons_self _ _)
    rw [ih _ (fun h => hm (List.mem_cons_of_mem _ h)), lookupA_setA_other _ _ _ _ hne]

theorem checkDirty_store_mem (env : String → ModuleState) (names : List String)
    (last : List (String × Option Int)) (m : String) (hm : m ∈ names)
    (hnd : names.Nodup) :
    lookupA (checkDirty env names last).2 m = some (getLastModuleUpdate (env m)) := by
  induction names generalizing last with
  | nil => cases hm
  | cons hd tl ih =>
    simp only [checkDirty]
    by_cases hmem : m ∈ tl
    · exact ih _ hmem (List.Nodup.of_cons hnd)
    · have hed : m = hd := by
        rcases List.mem_cons.mp hm with h | h
        · exact h
        · exact absurd h hmem
      subst hed
      rw [checkDirty_store_not_mem env tl _ m hmem]
      exact lookupA_setA_same _ _ _

theorem dirtyCond_decide (env : String → ModuleState) (last : List (String × Option Int))
    (m : String) :
    ((lookupA last m).join.isNone ||
      (match getLastModuleUpdate (env m), (lookupA last m).join with
       | some n, some p => decide (p < n)
       | _, _ => false)) = true ↔ DirtyCond env last m := by
  unfold DirtyCond
  cases hnew : getLastModuleUpdate (env m) <;>
    cases hprev : (lookupA last m).join <;> simp

theorem dirtyCond_setA_other (env : String → ModuleState)
    (last : List (String × Option Int)) (k m : String) (v : Option Int) (h : m ≠ k) :
    DirtyCond env (setA last k v) m ↔ DirtyCond env last m := by
  unfold DirtyCond
  rw [lookupA_setA_other _ _ _ _ h]

theorem checkDirty_mem (env : String → ModuleState) (names : List String)
    (last : List (String × Option Int)) (hnd : names.Nodup) (m : String) :
    m ∈ (checkDirty env names last).1 ↔ m ∈ names ∧ DirtyCond env last m := by
  induction names generalizing last with
  | nil => simp [checkDirty]
  | cons hd tl ih =>
    have hnotin : hd ∉ tl := (List.nodup_cons.mp hnd).1
    have hndtl : tl.Nodup := (List.nodup_cons.mp hnd).2
    simp only [checkDirty]
    by_cases hdm : m = hd
    · subst hdm
      by_cases hdirty :
          ((lookupA last m).join.isNone ||
            (match getLastModuleUpdate (env m), (lookupA last m).join with
             | some n, some p => decide (p < n)
             | _, _ => false)) = true
      · rw [if_pos hdirty]
        constructor
        · intro _
          exact ⟨List.mem_cons_self _ _, (dirtyCond_decide env last m).mp hdirty⟩
        · intro _
          exact List.mem_cons_self _ _
      · rw [if_neg hdirty]
        constructor
        · intro hmem
          have := (ih _ hndtl).mp hmem
          exact absurd this.1 hnotin
        · intro ⟨_, hcond⟩
          exact absurd ((dirtyCond_decide env last m).mpr hcond) hdirty
    · have hstep :
          m ∈ (checkDirty env tl (setA last hd (getLastModuleUpdate (env hd)))).1 ↔
            m ∈ tl ∧ DirtyCond env last m := by
        rw [ih _ hndtl, dirtyCond_setA_other env last hd m _ hdm]
      by_cases hdirty :
          ((lookupA last hd).join.isNone ||
            (match getLastModuleUpdate (env hd), (lookupA last hd).join with
             | some n, some p => decide (p < n)
             | _, _ => false)) = true
      · rw [if_pos hdirty]
        rw [List.mem_cons]
        constructor
        · intro h
          rcases h with h | h
          · exact absurd h hdm
          · have := hstep.mp h
            exact ⟨List.mem_cons_of_mem _ this.1, this.2⟩
        · intro ⟨hmem, hcond⟩
          rcases List.mem_cons.mp hmem with h | h
          · exact absurd h hdm
          · exact Or.inr (hstep.mpr ⟨h, hcond⟩)
      · rw [if_neg hdirty]
        constructor
        · intro h
          have := hstep.mp h
          exact ⟨List.mem_cons_of_mem _ this.1, this.2⟩
        · intro ⟨hmem, hcond⟩
          rcases List.mem_cons.mp hmem with h | h
          · exact absurd h hdm
          · exact hstep.mpr ⟨h, hcond⟩

/-- A module whose state makes its backing file unresolvable: it is absent
from `sys.modules` and has neither a file nor a stat result. -/
def deadEnv : String → ModuleState := fun n => ⟨false, n, none, none⟩

/-- A module whose backing file resolves and stats successfully, with a
fixed modification time. -/
def aliveEnv : String → ModuleState := fun n => ⟨true, n, some "f.py", some 5⟩

/-- C3: the staleness check returns exactly the input modules whose current
modification time strictly exceeds the stored value or whose stored value
was unset, and as a side effect stores the current value for every input
module, dirty or not. -/
theorem claim_C3_staleness_check_exact (env : String → ModuleState) (names : List String)
    (last : List (String × Option Int)) (hnd : names.Nodup) :
    (∀ m, m ∈ (checkDirty env names last).1 ↔ m ∈ names ∧ DirtyCond env last m)
    ∧ (∀ m ∈ names,
        lookupA (checkDirty env names last).2 m = some (getLastModuleUpdate (env m))) :=
  ⟨fun m => checkDirty_mem env names last hnd m,
   fun m hm => checkDirty_store_mem env names last m hm hnd⟩

/-- Witness for C3 at a concrete environment, watch list and store. -/
theorem claim_C3_staleness_check_exact_witness :
    (∀ m, m ∈ (checkDirty aliveEnv ["a", "b"] [("a", some 3)]).1 ↔
        m ∈ ["a", "b"] ∧ DirtyCond aliveEnv [("a", some 3)] m)
    ∧ (∀ m ∈ ["a", "b"],
        lookupA (checkDirty aliveEnv ["a", "b"] [("a", some 3)]).2 m =
          some (getLastModuleUpdate (aliveEnv m))) :=
  claim_C3_staleness_check_exact aliveEnv ["a", "b"] [("a", some 3)] (by decide)

/-- C2 counterexample: a module whose backing file cannot be resolved (here:
not present in the loaded-module registry) IS reported dirty by the check,
contradicting the claim that it is never reported dirty; moreover it stays
dirty on the following check as well. -/
theorem claim_C2_counterexample :
    getLastModuleUpdate (deadEnv "m") = none
    ∧ "m" ∈ (checkDirty deadEnv ["m"] [("m", none)]).1
    ∧ "m" ∈ (checkDirty deadEnv ["m"] (checkDirty deadEnv ["m"] [("m", none)]).2).1 := by
  decide

/-- C2 amended: a module whose backing file cannot be resolved is reported
dirty on EVERY staleness check, never on none of them: its stored timestamp
is unset before the first check and remains unset after every check, and an
unset stored timestamp alone marks a module dirty. -/
theorem claim_C2_amended (env : String → ModuleState) (names : List String)
    (last : List (String × Option Int)) (m : String) (hm : m ∈ names)
    (hnd : names.Nodup) (hunres : getLastModuleUpdate (env m) = none) :
    ((lookupA last m).join = none → m ∈ (checkDirty env names last).1)
    ∧ (lookupA (checkDirty env names last).2 m).join = none := by
  constructor
  · intro hprev
    exact (checkDirty_mem env names last hnd m).mpr ⟨hm, Or.inl hprev⟩
  · rw [checkDirty_store_mem env names last m hm hnd, hunres]
    rfl

/-- Witness for the amended C2 at a concrete unresolvable module. -/
theorem claim_C2_amended_witness :
    ((lookupA [("m", (none : Option Int))] "m").join = none →
      "m" ∈ (checkDirty deadEnv ["m"] [("m", none)]).1)
    ∧ (lookupA (checkDirty deadEnv ["m"] [("m", none)]).2 "m").join = none :=
  claim_C2_amended deadEnv ["m"] [("m", none)] "m" (by decide) (by decide) (by decide)

/-- C4 counterexample: for a module whose file is never statable, two
consecutive checks with no file modification and no change in stat-ability
in between still report the module dirty on the second check, so the second
dirty set is not empty. -/
theorem claim_C4_counterexample :
    (checkDirty deadEnv ["m"] (checkDirty deadEnv ["m"] [("m", none)]).2).1 = ["m"] := by
  decide

/-- C4 amended: restricted to modules whose modification time is currently
resolvable, the second of two consecutive checks with no file change
reports an empty dirty set, and a module observed for the first time (unset
stored timestamp) is reported dirty on that first check. -/
theorem claim_C4_amended (env : String → ModuleState) (names : List String)
    (last : List (String × Option Int)) (hnd : names.Nodup)
    (hstat : ∀ m ∈ names, (getLastModuleUpdate (env m)).isSome) :
    (checkDirty env names (checkDirty env names last).2).1 = []
    ∧ ∀ m ∈ names, (lookupA last m).join = none → m ∈ (checkDirty env names last).1 := by
  constructor
  · rw [List.eq_nil_iff_forall_not_mem]
    intro m hmem
    have h := (checkDirty_mem env names (checkDirty env names last).2 hnd m).mp hmem
    obtain ⟨t, ht⟩ := Option.isSome_iff_exists.mp (hstat m h.1)
    have hstore : (lookupA (checkDirty env names last).2 m).join = some t := by
      rw [checkDirty_store_mem env names last m h.1 hnd, ht]
      rfl
    rcases h.2 with hnone | ⟨n, p, hn, hp, hlt⟩
    · rw [hstore] at hnone
      cases hnone
    · rw [hstore] at hp
      rw [ht] at hn
      have h1 : t = p := Option.some.inj hp
      have h2 : t = n := Option.some.inj hn
      omega
  · intro m hm hprev
    exact (checkDirty_mem env names last hnd m).mpr ⟨hm, Or.inl hprev⟩

/-- Witness for the amended C4 at a concrete statable module. -/
theorem claim_C4_amended_witness :
    (checkDirty aliveEnv ["a"] (checkDirty aliveEnv ["a"] []).2).1 = []
    ∧ ∀ m ∈ ["a"], (lookupA ([] : List (String × Option Int)) m).join = none →
        m ∈ (checkDirty aliveEnv ["a"] []).1 :=
  claim_C4_amended aliveEnv ["a"] [] (by decide) (by decide)

/-! ## Dependency graph and reachability search (`cell_autoreload.py`)

`_create_module_graph` builds a `dict[str, set[str]]`; `_ModuleSearch`
answers reachability queries against it with a memoisation cache. -/

/-- A dependency graph as built by `_create_module_graph`: a finite map
from module name to the names it directly references. -/
abbrev Graph := List (String × List String)

/-- `self._graph.get(m, set())`. -/
def nbrs (g : Graph) (m : String) : List String := (lookupA g m).getD []

/-- One directed dependency edge. -/
def Step (g : Graph) (a b : String) : Prop := b ∈ nbrs g a

/-- `source` is in the target set or a directed path (length zero or more)
leads from `source` to a target. -/
def Reaches (g : Graph) (targets : List String) (s : String) : Prop :=
  ∃ t ∈ targets, Relation.ReflTransGen (Step g) s t

/-- The neighbour loop of `_ModuleSearch._reaches_targets`: append each
not-yet-visited neighbour to the queue and mark it visited.  The last
component is a ghost trace recording every node ever enqueued. -/
def enqueueNbrs : List String → List String → Finset String → List String →
    List String × Finset String × List String
  | [], q, v, e => (q, v, e)
  | n :: ns, q, v, e =>
    if n ∈ v then enqueueNbrs ns q v e
    else enqueueNbrs ns (q ++ [n]) (insert n v) (e ++ [n])

/-- Embedding of the breadth-first loop of `_ModuleSearch._reaches_targets`
(cell_autoreload.py lines 65-89).  The loop is given explicit fuel (the
Python `while queue` loop has no structural decrease); `stdFuel` below is
provably enough, so `none` (out of fuel) never occurs.  The final component
is the ghost trace of every node ever enqueued. -/
def reachesAux (g : Graph) (targets : List String) (cache : List (String × Bool)) :
    Nat → List String → Finset String → List String → Option Bool × List String
  | 0, _, _, e => (none, e)
  | _ + 1, [], _, e => (some false, e)
  | fuel + 1, m :: rest, v, e =>
    match lookupA cache m with
    | some true => (some true, e)
    | some false => reachesAux g targets cache fuel rest v e
    | none =>
      if m ∈ targets then (some true, e)
      else
        let r := enqueueNbrs (nbrs g m) rest v e
        reachesAux g targets cache fuel r.1 r.2.1 r.2.2

/-- All nodes that occur as a neighbour anywhere in the graph. -/
def graphNodes (g : Graph) : Finset String :=
  g.foldr (fun p acc => p.2.toFinset ∪ acc) ∅

/-- Fuel sufficient for the traversal: twice the number of nodes that can
ever be visited, plus one. -/
def stdFuel (g : Graph) (source : String) : Nat :=
  2 * (insert source (graphNodes g)).card + 1

/-- Embedding of `_ModuleSearch.reaches_targets`: run the search and record
the result in the memoisation cache. -/
def reachesTargets (g : Graph) (targets : List String) (cache : List (String × Bool))
    (source : String) : Bool × List (String × Bool) :=
  let r := (reachesAux g targets cache (stdFuel g source) [source] {source} [source]).1.getD false
  (r, setA cache source r)

/-- Embedding of the narrowing comprehension of
`ModuleReloader._pre_run_cell_maybe_reload` (cell_autoreload.py lines
198-206): keep the modules of the reload set whose search succeeds, the
cache being threaded through successive queries. -/
def selectReload (g : Graph) (targets : List String) :
    List String → List (String × Bool) → List String
  | [], _ => []
  | m :: ms, cache =>
    let r := reachesTargets g targets cache m
    if r.1 then m :: selectReload g targets ms r.2 else selectReload g targets ms r.2

/-- The set of modules the pre-run-cell hook selects for reload, starting
from the fresh `_ModuleSearch` (empty cache). -/
def modulesToUpdate (g : Graph) (dirty : List String) (reloadSet : List String) :
    List String :=
  selectReload g dirty reloadSet []

/-- A memoisation cache is correct when every recorded answer agrees with
reachability. -/
def CacheOK (g : Graph) (targets : List String) (cache : List (String × Bool)) : Prop :=
  ∀ s b, lookupA cache s = some b → (b = true ↔ Reaches g targets s)

theorem enqueueNbrs_spec (ns q : List String) (v : Finset String) (e : List String) :
    ∃ added : List String,
      enqueueNbrs ns q v e = (q ++ added, v ∪ added.toFinset, e ++ added)
      ∧ added.Nodup
      ∧ (∀ x ∈ added, x ∈ ns ∧ x ∉ v)
      ∧ (∀ x ∈ ns, x ∈ v ∪ added.toFinset) := by
  induction ns generalizing q v e with
  | nil => exact ⟨[], by simp [enqueueNbrs], List.nodup_nil, by simp, by simp⟩
  | cons n ns ih =>
    by_cases hn : n ∈ v
    · obtain ⟨added, h1, h2, h3, h4⟩ := ih q v e
      refine ⟨added, by simp [enqueueNbrs, hn, h1], h2, ?_, ?_⟩
      · exact fun x hx => ⟨List.mem_cons_of_mem _ (h3 x hx).1, (h3 x hx).2⟩
      · intro x hx
        rcases List.mem_cons.mp hx with rfl | hx
        · exact Finset.mem_union_left _ hn
        · exact h4 x hx
    · obtain ⟨added, h1, h2, h3, h4⟩ := ih (q ++ [n]) (insert n v) (e ++ [n])
      have hv : insert n v ∪ added.toFinset = v ∪ (n :: added).toFinset := by
        ext x
        simp only [Finset.mem_union, Finset.mem_insert, List.toFinset_cons,
          List.mem_toFinset]
        tauto
      refine ⟨n :: added, ?_, ?_, ?_, ?_⟩
      · rw [enqueueNbrs, if_neg hn, h1, hv]
        simp
      · exact List.nodup_cons.mpr
          ⟨fun hmem => (h3 n hmem).2 (Finset.mem_insert_self n v), h2⟩
      · intro x hx
        rcases List.mem_cons.mp hx with rfl | hx
        · exact ⟨List.mem_cons_self _ _, hn⟩
        · exact ⟨List.mem_cons_of_mem _ (h3 x hx).1,
            fun hxv => (h3 x hx).2 (Finset.mem_insert_of_mem hxv)⟩
      · intro x hx
        rcases List.mem_cons.mp hx with rfl | hx
        · exact Finset.mem_union_right _ (by simp)
        · rcases Finset.mem_union.mp (h4 x hx) with hxv | hxa
          · rcases Finset.mem_insert.mp hxv with rfl | hxv
            · exact Finset.mem_union_right _ (by simp)
            · exact Finset.mem_union_left _ hxv
          · exact Finset.mem_union_right _ (by simp [List.mem_toFinset.mp hxa])

theorem reachesAux_true_sound (g : Graph) (targets : List String)
    (cache : List (String × Bool)) (hc : CacheOK g targets cache) (src : String) :
    ∀ (fuel : Nat) (q : List String) (v : Finset String) (e : List String),
      (∀ x ∈ q, Relation.ReflTransGen (Step g) src x) →
      (reachesAux g targets cache fuel q v e).1 = some true →
      Reaches g targets src := by
  intro fuel
  induction fuel with
  | zero =>
    intro q v e _ h
    simp [reachesAux] at h
  | succ fuel ih =>
    intro q v e hq h
    cases q with
    | nil => simp [reachesAux] at h
    | cons m rest =>
      cases hcm : lookupA cache m with
      | some b =>
        cases b with
        | true =>
          obtain ⟨t, ht, hp⟩ := (hc m true hcm).mp rfl
          exact ⟨t, ht, (hq m (List.mem_cons_self _ _)).trans hp⟩
        | false =>
          simp only [reachesAux, hcm] at h
          exact ih rest v e (fun x hx => hq x (List.mem_cons_of_mem _ hx)) h
      | none =>
        by_cases hm : m ∈ targets
        · exact ⟨m, hm, hq m (List.mem_cons_self _ _)⟩
        · simp only [reachesAux, hcm, if_neg hm] at h
          obtain ⟨added, heq, _, hadd, _⟩ := enqueueNbrs_spec (nbrs g m) rest v e
          rw [heq] at h
          apply ih _ _ _ _ h
          intro x hx
          rcases List.mem_append.mp hx with hx | hx
          · exact hq x (List.mem_cons_of_mem _ hx)
          · exact (hq m (List.mem_cons_self _ _)).tail (hadd x hx).1

theorem closed_not_reaches (g : Graph) (targets : List String)
    (cache : List (String × Bool)) (hc : CacheOK g targets cache) (S : Finset String)
    (hS : ∀ v ∈ S, lookupA cache v = some false ∨
      (v ∉ targets ∧ ∀ n ∈ nbrs g v, n ∈ S)) :
    ∀ v ∈ S, ¬ Reaches g targets v := by
  intro v hv hr
  obtain ⟨t, ht, hp⟩ := hr
  revert hv
  induction hp using Relation.ReflTransGen.head_induction_on with
  | refl =>
    intro hvt
    rcases hS t hvt with hcf | ⟨hnt, _⟩
    · have := (hc t false hcf).mpr ⟨t, ht, Relation.ReflTransGen.refl⟩
      cases this
    · exact hnt ht
  | head hstep htl ih =>
    intro hva
    rcases hS _ hva with hcf | ⟨_, hnb⟩
    · have := (hc _ false hcf).mpr ⟨t, ht, htl.head hstep⟩
      cases this
    · exact ih (hnb _ hstep)

theorem reachesAux_false_sound (g : Graph) (targets : List String)
    (cache : List (String × Bool)) (hc : CacheOK g targets cache) :
    ∀ (fuel : Nat) (q : List String) (v : Finset String) (e : List String),
      (∀ x ∈ q, x ∈ v) →
      (∀ x ∈ v, x ∉ q → lookupA cache x = some false ∨
        (x ∉ targets ∧ ∀ n ∈ nbrs g x, n ∈ v)) →
      (reachesAux g targets cache fuel q v e).1 = some false →
      ∀ x ∈ v, ¬ Reaches g targets x := by
  intro fuel
  induction fuel with
  | zero =>
    intro q v e _ _ h
    simp [reachesAux] at h
  | succ fuel ih =>
    intro q v e hqv hcl h
    cases q with
    | nil =>
      exact closed_not_reaches g targets cache hc v
        (fun x hx => hcl x hx (List.not_mem_nil x))
    | cons m rest =>
      cases hcm : lookupA cache m with
      | some b =>
        cases b with
        | true => simp [reachesAux, hcm] at h
        | false =>
          simp only [reachesAux, hcm] at h
          apply ih rest v e (fun x hx => hqv x (List.mem_cons_of_mem _ hx)) _ h
          intro x hx hxq
          by_cases hxm : x = m
          · exact Or.inl (hxm ▸ hcm)
          · exact hcl x hx (fun hq => (List.mem_cons.mp hq).elim hxm hxq)
      | none =>
        by_cases hm : m ∈ targets
        · simp [reachesAux, hcm, if_pos hm] at h
        · simp only [reachesAux, hcm, if_neg hm] at h
          obtain ⟨added, heq, _, hadd, hcov⟩ := enqueueNbrs_spec (nbrs g m) rest v e
          rw [heq] at h
          have hres := ih (rest ++ added) (v ∪ added.toFinset) (e ++ added) ?_ ?_ h
          · exact fun x hx => hres x (Finset.mem_union_left _ hx)
          · intro x hx
            rcases List.mem_append.mp hx with hx | hx
            · exact Finset.mem_union_left _ (hqv x (List.mem_cons_of_mem _ hx))
            · exact Finset.mem_union_right _ (List.mem_toFinset.mpr hx)
          · intro x hx hxq
            rcases Finset.mem_union.mp hx with hxv | hxa
            · by_cases hxm : x = m
              · subst hxm
                refine Or.inr ⟨hm, fun n hn => hcov n hn⟩
              · have hxrest : x ∉ rest :=
                  fun hr => hxq (List.mem_append.mpr (Or.inl hr))
                rcases hcl x hxv (fun hq => (List.mem_cons.mp hq).elim hxm hxrest)
                  with hcf | ⟨hnt, hnb⟩
                · exact Or.inl hcf
                · exact Or.inr ⟨hnt, fun n hn => Finset.mem_union_left _ (hnb n hn)⟩
            · exact absurd (List.mem_append.mpr (Or.inr (List.mem_toFinset.mp hxa))) hxq

theorem nbrs_subset_graphNodes (g : Graph) (m x : String) (hx : x ∈ nbrs g m) :
    x ∈ graphNodes g := by
  induction g with
  | nil => simp [nbrs, lookupA] at hx
  | cons p rest ih =>
    rw [graphNodes, List.foldr_cons]
    by_cases hp : p.1 = m
    · have : nbrs (p :: rest) m = p.2 := by
        simp [nbrs, lookupA_cons, hp]
      rw [this] at hx
      exact Finset.mem_union_left _ (List.mem_toFinset.mpr hx)
    · have : nbrs (p :: rest) m = nbrs rest m := by
        simp [nbrs, lookupA_cons, hp]
      rw [this] at hx
      exact Finset.mem_union_right _ (ih hx)

theorem reachesAux_ne_none (g : Graph) (targets : List String)
    (cache : List (String × Bool)) (bound : Finset String)
    (hb : ∀ m x, x ∈ nbrs g m → x ∈ bound) :
    ∀ (fuel : Nat) (q : List String) (v : Finset String) (e : List String),
      2 * (bound \ v).card + q.length + 1 ≤ fuel →
      (reachesAux g targets cache fuel q v e).1 ≠ none := by
  intro fuel
  induction fuel with
  | zero => intro q v e hf; omega
  | succ fuel ih =>
    intro q v e hf
    cases q with
    | nil => simp [reachesAux]
    | cons m rest =>
      cases hcm : lookupA cache m with
      | some b =>
        cases b with
        | true => simp [reachesAux, hcm]
        | false =>
          simp only [reachesAux, hcm]
          apply ih rest v e
          simp only [List.length_cons] at hf
          omega
      | none =>
        by_cases hm : m ∈ targets
        · simp [reachesAux, hcm, if_pos hm]
        · simp only [reachesAux, hcm, if_neg hm]
          obtain ⟨added, heq, hnd, hadd, _⟩ := enqueueNbrs_spec (nbrs g m) rest v e
          rw [heq]
          apply ih
          have hsub : added.toFinset ⊆ bound \ v := by
            intro x hx
            have hx' := List.mem_toFinset.mp hx
            exact Finset.mem_sdiff.mpr ⟨hb m x (hadd x hx').1, (hadd x hx').2⟩
          have hcard : (bound \ (v ∪ added.toFinset)).card =
              (bound \ v).card - added.toFinset.card := by
            have : bound \ (v ∪ added.toFinset) = (bound \ v) \ added.toFinset := by
              ext x
              simp only [Finset.mem_sdiff, Finset.mem_union]
              tauto
            rw [this, Finset.card_sdiff hsub]
          have hle : added.toFinset.card ≤ (bound \ v).card :=
            Finset.card_le_card hsub
          have hlen : added.toFinset.card = added.length :=
            List.toFinset_card_of_nodup hnd
          simp only [List.length_append, List.length_cons] at hf ⊢
          omega

theorem reachesAux_trace_nodup (g : Graph) (targets : List String)
    (cache : List (String × Bool)) :
    ∀ (fuel : Nat) (q : List String) (v : Finset String) (e : List String),
      e.Nodup → (∀ x, x ∈ e ↔ x ∈ v) →
      (reachesAux g targets cache fuel q v e).2.Nodup := by
  intro fuel
  induction fuel with
  | zero => intro q v e he _; simpa [reachesAux] using he
  | succ fuel ih =>
    intro q v e he hev
    cases q with
    | nil => simpa [reachesAux] using he
    | cons m rest =>
      cases hcm : lookupA cache m with
      | some b =>
        cases b with
        | true => simpa [reachesAux, hcm] using he
        | false =>
          simp only [reachesAux, hcm]
          exact ih rest v e he hev
      | none =>
        by_cases hm : m ∈ targets
        · simpa [reachesAux, hcm, if_pos hm] using he
        · simp only [reachesAux, hcm, if_neg hm]
          obtain ⟨added, heq, hnd, hadd, _⟩ := enqueueNbrs_spec (nbrs g m) rest v e
          rw [heq]
          apply ih
          · refine List.Nodup.append he hnd ?_
            intro x hxe hxa
            exact (hadd x hxa).2 ((hev x).mp hxe)
          · intro x
            simp only [List.mem_append, Finset.mem_union, hev x, List.mem_toFinset]

theorem reachesAux_correct (g : Graph) (targets : List String)
    (cache : List (String × Bool)) (src : String) (hc : CacheOK g targets cache) :
    (reachesAux g targets cache (stdFuel g src) [src] {src} [src]).1 ≠ none
    ∧ ((reachesAux g targets cache (stdFuel g src) [src] {src} [src]).1 = some true ↔
        Reaches g targets src)
    ∧ (reachesAux g targets cache (stdFuel g src) [src] {src} [src]).2.Nodup := by
  have hne : (reachesAux g targets cache (stdFuel g src) [src] {src} [src]).1 ≠ none := by
    apply reachesAux_ne_none g targets cache (insert src (graphNodes g))
      (fun m x hx => Finset.mem_insert_of_mem (nbrs_subset_graphNodes g m x hx))
    have hmem : src ∈ insert src (graphNodes g) := Finset.mem_insert_self _ _
    have hsub : ({src} : Finset String) ⊆ insert src (graphNodes g) :=
      Finset.singleton_subset_iff.mpr hmem
    have hcard : (insert src (graphNodes g) \ {src}).card =
        (insert src (graphNodes g)).card - 1 := by
      rw [Finset.card_sdiff hsub, Finset.card_singleton]
    have hpos : 1 ≤ (insert src (graphNodes g)).card :=
      Finset.card_pos.mpr ⟨src, hmem⟩
    simp only [stdFuel, List.length_cons, List.length_nil]
    omega
  refine ⟨hne, ⟨?_, ?_⟩, ?_⟩
  · intro h
    apply reachesAux_true_sound g targets cache hc src _ [src] {src} [src] _ h
    intro x hx
    rw [List.mem_singleton] at hx
    subst hx
    exact Relation.ReflTransGen.refl
  · intro hr
    cases hres : (reachesAux g targets cache (stdFuel g src) [src] {src} [src]).1 with
    | none => exact absurd hres hne
    | some b =>
      cases b with
      | true => rfl
      | false =>
        exact absurd hr
          (reachesAux_false_sound g targets cache hc _ [src] {src} [src]
            (by simp) (by intro x hx hxq; simp at hx; simp [hx] at hxq) hres
            src (by simp))
  · exact reachesAux_trace_nodup g targets cache _ [src] {src} [src]
      (List.nodup_singleton src) (by simp)

theorem reachesTargets_correct (g : Graph) (targets : List String)
    (cache : List (String × Bool)) (src : String) (hc : CacheOK g targets cache) :
    ((reachesTargets g targets cache src).1 = true ↔ Reaches g targets src)
    ∧ CacheOK g targets (reachesTargets g targets cache src).2 := by
  obtain ⟨hne, hiff, _⟩ := reachesAux_correct g targets cache src hc
  cases hres : (reachesAux g targets cache (stdFuel g src) [src] {src} [src]).1 with
  | none => exact absurd hres hne
  | some b =>
    have hr1 : (reachesTargets g targets cache src).1 = b := by
      simp [reachesTargets, hres]
    have hbiff : b = true ↔ Reaches g targets src := by
      rw [← hiff, hres]
      constructor
      · intro h; rw [h]
      · intro h; exact Option.some.inj h
    constructor
    · rw [hr1]; exact hbiff
    · intro s b' hs
      by_cases hss : s = src
      · subst hss
        have : lookupA (reachesTargets g targets cache s).2 s =
            some (reachesTargets g targets cache s).1 := by
          simp [reachesTargets, lookupA_setA_same]
        rw [this] at hs
        have hb' : b' = (reachesTargets g targets cache s).1 :=
          (Option.some.inj hs).symm
        rw [hb', hr1]
        exact hbiff
      · have : lookupA (reachesTargets g targets cache src).2 s = lookupA cache s := by
          simp only [reachesTargets]
          exact lookupA_setA_other _ _ _ _ hss
        rw [this] at hs
        exact hc s b' hs

theorem selectReload_mem (g : Graph) (targets : List String) :
    ∀ (ms : List String) (cache : List (String × Bool)),
      CacheOK g targets cache →
      ∀ m, m ∈ selectReload g targets ms cache ↔ m ∈ ms ∧ Reaches g targets m := by
  intro ms
  induction ms with
  | nil => intro cache _ m; simp [selectReload]
  | cons hd tl ih =>
    intro cache hc m
    obtain ⟨hiff, hcok⟩ := reachesTargets_correct g targets cache hd hc
    simp only [selectReload]
    by_cases hr : (reachesTargets g targets cache hd).1 = true
    · rw [if_pos hr]
      rw [List.mem_cons]
      constructor
      · intro h
        rcases h with rfl | h
        · exact ⟨List.mem_cons_self _ _, hiff.mp hr⟩
        · have := (ih _ hcok m).mp h
          exact ⟨List.mem_cons_of_mem _ this.1, this.2⟩
      · intro ⟨hmem, hreach⟩
        rcases List.mem_cons.mp hmem with rfl | h
        · exact Or.inl rfl
        · exact Or.inr ((ih _ hcok m).mpr ⟨h, hreach⟩)
    · rw [if_neg hr]
      rw [ih _ hcok m]
      constructor
      · intro ⟨h1, h2⟩
        exact ⟨List.mem_cons_of_mem _ h1, h2⟩
      · intro ⟨hmem, hreach⟩
        rcases List.mem_cons.mp hmem with rfl | h
        · exact absurd (hiff.mpr hreach) hr
        · exact ⟨h, hreach⟩

theorem cacheOK_nil (g : Graph) (targets : List String) :
    CacheOK g targets [] := by
  intro s b h
  simp [lookupA] at h

/-- C1: with a non-empty dirty set contained in the watched set, the
pre-run-cell hook selects exactly the watched modules with a directed path
(length zero or more) to some dirty module; in particular every dirty
module is selected. -/
theorem claim_C1_closure_exact (g : Graph) (dirty reloadSet : List String)
    (_hne : dirty ≠ []) (hsub : ∀ d ∈ dirty, d ∈ reloadSet) :
    (∀ m, m ∈ modulesToUpdate g dirty reloadSet ↔
        m ∈ reloadSet ∧ Reaches g dirty m)
    ∧ ∀ d ∈ dirty, d ∈ modulesToUpdate g dirty reloadSet := by
  have hmem := selectReload_mem g dirty reloadSet [] (cacheOK_nil g dirty)
  refine ⟨hmem, fun d hd => ?_⟩
  exact (hmem d).mpr ⟨hsub d hd, d, hd, Relation.ReflTransGen.refl⟩

/-- Witness for C1: the mutual-import scenario of the specification —
modules `a` and `b` reference each other, only `a` is dirty, and both are
selected. -/
theorem claim_C1_closure_exact_witness :
    ((∀ m, m ∈ modulesToUpdate [("a", ["b"]), ("b", ["a"])] ["a"] ["a", "b"] ↔
        m ∈ ["a", "b"] ∧ Reaches [("a", ["b"]), ("b", ["a"])] ["a"] m)
      ∧ ∀ d ∈ ["a"], d ∈ modulesToUpdate [("a", ["b"]), ("b", ["a"])] ["a"] ["a", "b"]) :=
  claim_C1_closure_exact [("a", ["b"]), ("b", ["a"])] ["a"] ["a", "b"]
    (by decide) (by decide)

/-- C5: for every dependency graph (cycles and self-edges allowed) and any
correct memoisation cache, the breadth-first search with the prescribed
fuel terminates (never runs out of fuel), answers true exactly when the
source is a target or reaches one by a directed path, and never enqueues a
node twice (the trace of enqueued nodes has no duplicates). -/
theorem claim_C5_bfs_terminates_correct (g : Graph) (targets : List String)
    (cache : List (String × Bool)) (source : String) (hc : CacheOK g targets cache) :
    (reachesAux g targets cache (stdFuel g source) [source] {source} [source]).1 ≠ none
    ∧ ((reachesAux g targets cache (stdFuel g source) [source] {source} [source]).1 =
        some true ↔ Reaches g targets source)
    ∧ (reachesAux g targets cache (stdFuel g source) [source] {source} [source]).2.Nodup :=
  reachesAux_correct g targets cache source hc

/-- Witness for C5 on a concrete cyclic graph with a self-edge. -/
theorem claim_C5_bfs_terminates_correct_witness :
    (reachesAux [("a", ["b"]), ("b", ["a"]), ("c", ["c"])] ["a"] []
        (stdFuel [("a", ["b"]), ("b", ["a"]), ("c", ["c"])] "b")
        ["b"] {"b"} ["b"]).1 ≠ none
    ∧ ((reachesAux [("a", ["b"]), ("b", ["a"]), ("c", ["c"])] ["a"] []
        (stdFuel [("a", ["b"]), ("b", ["a"]), ("c", ["c"])] "b")
        ["b"] {"b"} ["b"]).1 = some true ↔
        Reaches [("a", ["b"]), ("b", ["a"]), ("c", ["c"])] ["a"] "b")
    ∧ (reachesAux [("a", ["b"]), ("b", ["a"]), ("c", ["c"])] ["a"] []
        (stdFuel [("a", ["b"]), ("b", ["a"]), ("c", ["c"])] "b")
        ["b"] {"b"} ["b"]).2.Nodup :=
  claim_C5_bfs_terminates_correct [("a", ["b"]), ("b", ["a"]), ("c", ["c"])] ["a"] []
    "b" (cacheOK_nil _ _)

/-! ## In-place patcher (`inplace_reload.py`)

Python objects live on a heap of addresses; object identity is address
equality (`is`), and mutation is an update of the heap at an address. -/

/-- An object address: the model of Python object identity. -/
abbrev Addr := Nat

/-- The kinds of objects the patcher distinguishes: classes carry an
attribute dictionary of addresses, functions carry their six copied fields
(`__code__`, `__defaults__`, `__doc__`, `__closure__`, `__globals__`,
`__dict__`) as opaque values, bound methods carry `__func__`, properties
carry `fget`/`fset`/`fdel` (possibly `None`), instances carry their class
pointer and an opaque payload, and everything else is opaque. -/
inductive PyObj where
  | cls (attrs : List (String × Addr))
  | func (code defaults doc closure globs fdict : Nat)
  | method (fn : Addr)
  | prop (fget fset fdel : Option Addr)
  | inst (clsA : Addr) (payload : Nat)
  | other (tag : Nat)
deriving DecidableEq

/-- The heap: a finite map from addresses to objects. -/
abbrev Heap := List (Addr × PyObj)

def hGet (h : Heap) (a : Addr) : Option PyObj :=
  (h.find? (fun p => p.1 = a)).map Prod.snd

/-- Mutate the object stored at an (existing) address. -/
def hSet (h : Heap) (a : Addr) (o : PyObj) : Heap :=
  h.map (fun p => if p.1 = a then (a, o) else p)

def PyObj.isFunc : PyObj → Bool
  | .func _ _ _ _ _ _ => true
  | _ => false

theorem hGet_hSet_same (h : Heap) (a : Addr) (o o0 : PyObj)
    (hex : hGet h a = some o0) : hGet (hSet h a o) a = some o := by
  induction h with
  | nil => simp [hGet] at hex
  | cons p rest ih =>
    by_cases hp : p.1 = a
    · simp [hGet, hSet, List.find?, hp]
    · simp only [hGet, hSet, List.map_cons, if_neg hp] at *
      rw [List.find?_cons_of_neg _ (by simp [hp])] at hex ⊢
      exact ih hex

theorem hGet_hSet_other (h : Heap) (a a' : Addr) (o : PyObj) (hne : a' ≠ a) :
    hGet (hSet h a o) a' = hGet h a' := by
  induction h with
  | nil => rfl
  | cons p rest ih =>
    by_cases hp : p.1 = a
    · simp only [hSet, List.map_cons, if_pos hp]
      rw [hGet, List.find?_cons_of_neg _ (by simp [Ne.symm hne]), hGet,
        List.find?_cons_of_neg _ (by simp [hp ▸ Ne.symm hne])]
      exact ih
    · simp only [hSet, List.map_cons, if_neg hp]
      by_cases hpa : p.1 = a'
      · rw [hGet, List.find?_cons_of_pos _ (by simp [hpa]), hGet,
          List.find?_cons_of_pos _ (by simp [hpa])]
      · rw [hGet, List.find?_cons_of_neg _ (by simp [hpa]), hGet,
          List.find?_cons_of_neg _ (by simp [hpa])]
        exact ih

/-- Embedding of `_update_function` (inplace_reload.py lines 266-279): for
each of `__code__`, `__defaults__`, `__doc__`, `__closure__`, `__globals__`
and `__dict__`, attempt `setattr(old, name, getattr(new, name))`, skipping
the attribute when the set raises.  In CPython `__closure__` and
`__globals__` are read-only function attributes, so those two `setattr`
calls raise `AttributeError` and are skipped on every call: the old
function keeps its own closure and globals reference, while code, defaults,
docstring and attribute dict are copied in place (the old address keeps
pointing at the mutated object). -/
def updateFunction (h : Heap) (old new : Addr) : Heap :=
  match hGet h old, hGet h new with
  | some (.func _ _ _ ocl og _), some (.func c d dc _ _ fd) =>
    hSet h old (.func c d dc ocl og fd)
  | _, _ => h

/-- Repoint an instance's class pointer, leaving everything else intact. -/
def instRepoint (old new : Addr) (o : PyObj) : PyObj :=
  match o with
  | .inst c payload => if c = old then .inst new payload else .inst c payload
  | o => o

/-- Embedding of `_update_instances` (inplace_reload.py lines 315-321):
every object whose runtime class pointer is exactly `old` has it reassigned
to `new`; the instance itself is not reconstructed. -/
def updateInstances (h : Heap) (old new : Addr) : Heap :=
  h.map (fun p => (p.1, instRepoint old new p.2))

/-- The rebinding tail of one `_update_class` iteration:
`setattr(old, key, getattr(new, key))` after the recursive update, re-read
from the (possibly updated) heap, skipped when it cannot be performed. -/
def classKeyRebind (h2 : Heap) (old new : Addr) (key : String) : Heap :=
  match hGet h2 old, hGet h2 new with
  | some (.cls oa2), some (.cls na2) =>
    match lookupA na2 key with
    | some v2 => hSet h2 old (.cls (setA oa2 key v2))
    | none => h2
  | _, _ => h2

/-- One iteration of the attribute loop of `_update_class` (inplace_reload.py
lines 243-261) for a single key, parametrised by the recursive generic
update: fetch the old attribute, delete it if the new class lost it,
otherwise recursively update it and rebind it to the new class's value. -/
def classKeyStep (rec : Heap → Addr → Addr → Heap) (h : Heap) (old new : Addr)
    (key : String) : Heap :=
  match hGet h old, hGet h new with
  | some (.cls oa), some (.cls na) =>
    match lookupA oa key with
    | none => h
    | some oldV =>
      match lookupA na key with
      | none => hSet h old (.cls (oa.filter (fun p => ¬ p.1 = key)))
      | some newV => classKeyRebind (rec h oldV newV) old new key
  | _, _ => h

/-- Body of `_update_class` parametrised by the recursive generic update:
iterate over a snapshot of the old class's keys, then repoint instances. -/
def updateClassR (rec : Heap → Addr → Addr → Heap) (h : Heap) (old new : Addr) : Heap :=
  match hGet h old with
  | some (.cls oa) =>
    updateInstances
      ((oa.map Prod.fst).foldl (fun hh key => classKeyStep rec hh old new key) h)
      old new
  | _ => h

/-- `_update_generic(old.fdel, new.fdel)` and friends: a `None` on either
side means no rule matches (or both are the identical `None`), a no-op. -/
def optStep (rec : Heap → Addr → Addr → Heap) (h : Heap) :
    Option Addr → Option Addr → Heap
  | some a, some b => rec h a b
  | _, _ => h

/-- Body of `_update_property` (inplace_reload.py lines 282-286): update
`fdel`, then `fget`, then `fset`. -/
def updatePropertyR (rec : Heap → Addr → Addr → Heap) (h : Heap) (old new : Addr) :
    Heap :=
  match hGet h old, hGet h new with
  | some (.prop og os od), some (.prop ng ns nd) =>
    optStep rec (optStep rec (optStep rec h od nd) og ng) os ns
  | _, _ => h

/-- Embedding of `_update_generic` (inplace_reload.py lines 289-297) with
the dispatch table `_UPDATE_RULES` (lines 304-312): stop if the two objects
are identical, otherwise apply the first rule whose kind both objects
share, or do nothing.  Fuel bounds the recursion depth through nested
class/property updates (the Python recursion has no structural decrease on
cyclic object graphs). -/
def updateGeneric : Nat → Heap → Addr → Addr → Heap
  | 0, h, _, _ => h
  | fuel + 1, h, old, new =>
    if old = new then h
    else
      match hGet h old, hGet h new with
      | some (.cls _), some (.cls _) =>
        updateClassR (fun hh a b => updateGeneric fuel hh a b) h old new
      | some (.func _ _ _ _ _ _), some (.func _ _ _ _ _ _) => updateFunction h old new
      | some (.method a), some (.method b) => updateFunction h a b
      | some (.prop _ _ _), some (.prop _ _ _) =>
        updatePropertyR (fun hh a b => updateGeneric fuel hh a b) h old new
      | _, _ => h

/-- Whether some entry of `_UPDATE_RULES` matches both objects. -/
def sharesRule (h : Heap) (a b : Addr) : Bool :=
  match hGet h a, hGet h b with
  | some (.cls _), some (.cls _) => true
  | some (.func _ _ _ _ _ _), some (.func _ _ _ _ _ _) => true
  | some (.method _), some (.method _) => true
  | some (.prop _ _ _), some (.prop _ _ _) => true
  | _, _ => false

/-- C6 counterexample: `__closure__` and `__globals__` are read-only
function attributes in CPython, so the per-attribute try/except of
`_update_function` silently skips copying them on every call — at this
concrete heap the old function keeps its own closure cell (4) and globals
reference (5) instead of receiving the new function's (14 and 15),
contradicting the claim that all six attributes are copied onto the old
function. -/
theorem claim_C6_counterexample :
    hGet (updateFunction [(0, .func 1 2 3 4 5 6), (9, .func 11 12 13 14 15 16)] 0 9) 0 =
      some (.func 11 12 13 4 5 16)
    ∧ hGet (updateFunction [(0, .func 1 2 3 4 5 6), (9, .func 11 12 13 14 15 16)] 0 9) 0 ≠
      some (.func 11 12 13 14 15 16) := by
  constructor
  · decide
  · decide

/-- C6 amended: updating a function copies the code object, default
arguments, docstring and attribute dict from the new function onto the old
function object; the closure and globals copies are attempted but silently
skipped because those attributes are read-only, so the old function keeps
its own closure and globals reference.  The old address keeps holding the
mutated object (its identity is preserved, it is never replaced) and every
other address is untouched, so any holder of a reference to the old
function observes the new code body. -/
theorem claim_C6_amended (h : Heap) (old new : Addr)
    (oc od odc ocl og ofd nc nd ndc ncl ng nfd : Nat)
    (hold : hGet h old = some (.func oc od odc ocl og ofd))
    (hnew : hGet h new = some (.func nc nd ndc ncl ng nfd)) :
    hGet (updateFunction h old new) old = some (.func nc nd ndc ocl og nfd)
    ∧ ∀ a, a ≠ old → hGet (updateFunction h old new) a = hGet h a := by
  unfold updateFunction
  rw [hold, hnew]
  exact ⟨hGet_hSet_same h old _ _ hold, fun a ha => hGet_hSet_other h old a _ ha⟩

/-- Witness for the amended C6 on a concrete two-function heap. -/
theorem claim_C6_amended_witness :
    hGet (updateFunction [(0, .func 1 2 3 4 5 6), (9, .func 11 12 13 14 15 16)] 0 9) 0 =
      some (.func 11 12 13 4 5 16)
    ∧ ∀ a, a ≠ 0 →
        hGet (updateFunction [(0, .func 1 2 3 4 5 6), (9, .func 11 12 13 14 15 16)] 0 9) a =
          hGet [(0, .func 1 2 3 4 5 6), (9, .func 11 12 13 14 15 16)] a :=
  claim_C6_amended _ 0 9 1 2 3 4 5 6 11 12 13 14 15 16 (by decide) (by decide)

theorem isFunc_shape (o : PyObj) (h : o.isFunc = true) :
    ∃ c d dc cl g fd, o = .func c d dc cl g fd := by
  cases o with
  | func c d dc cl g fd => exact ⟨c, d, dc, cl, g, fd, rfl⟩
  | cls attrs => simp [PyObj.isFunc] at h
  | method fn => simp [PyObj.isFunc] at h
  | prop a b c => simp [PyObj.isFunc] at h
  | inst a b => simp [PyObj.isFunc] at h
  | other t => simp [PyObj.isFunc] at h

/-- C10: the generic update dispatcher leaves the heap entirely unchanged
when the two objects are identical or when no rule of `_UPDATE_RULES`
matches both objects — in particular a symbol whose kind changed between
versions (function became class, etc.) is silently not patched. -/
theorem claim_C10_generic_noop (fuel : Nat) (h : Heap) (a b : Addr)
    (hcond : a = b ∨ sharesRule h a b = false) :
    updateGeneric fuel h a b = h := by
  cases fuel with
  | zero => rfl
  | succ fuel =>
    rcases hcond with rfl | hns
    · simp [updateGeneric]
    · by_cases hab : a = b
      · simp [updateGeneric, if_pos hab]
      · simp only [updateGeneric, if_neg hab]
        unfold sharesRule at hns
        cases h1 : hGet h a with
        | none => cases h2 : hGet h b <;> rfl
        | some o1 =>
          cases h2 : hGet h b with
          | none => cases o1 <;> rfl
          | some o2 =>
            rw [h1, h2] at hns
            cases o1 <;> cases o2 <;> first | rfl | exact Bool.noConfusion hns

/-- Witness for C10: a function replaced by a class is not patched. -/
theorem claim_C10_generic_noop_witness :
    updateGeneric 3 [(0, PyObj.func 1 2 3 4 5 6), (1, PyObj.cls [])] 0 1 =
      [(0, PyObj.func 1 2 3 4 5 6), (1, PyObj.cls [])] :=
  claim_C10_generic_noop 3 [(0, PyObj.func 1 2 3 4 5 6), (1, PyObj.cls [])] 0 1
    (Or.inr (by decide))

/-! ## Snapshot store pruning (`inplace_reload.py`, `_ModuleRefs`)

Weak references are modelled as addresses paired with a liveness oracle:
`ref()` resolves exactly when `live` answers true for the address. -/

/-- The reference snapshot `_ModuleRefs`: previously seen module-object
versions, and per top-level name the tracked object generations. -/
structure ModuleRefs where
  modules : List Addr
  objs : List (String × List Addr)
deriving DecidableEq

/-- The per-name survivor pass of `_ModuleRefs.update_refs_with_new_module`
(inplace_reload.py lines 92-104 and 115-121): iterate over the NEW module's
namespace names; a name with a stored entry contributes its live references
(possibly an empty list); a name without a stored entry contributes
nothing, and stored entries whose name is absent from the new module are
dropped. -/
def survivorsObjs (live : Addr → Bool) (objs : List (String × List Addr))
    (newNames : List String) : List (String × List Addr) :=
  newNames.filterMap (fun n =>
    match lookupA objs n with
    | none => none
    | some l => some (n, l.filter live))

/-- The snapshot returned by `_ModuleRefs.update_refs_with_new_module`
(inplace_reload.py lines 81-122): the module versions whose weak reference
still resolves, and the per-name live tracked objects for the names present
in the new module's namespace. -/
def updateRefsWithNewModule (live : Addr → Bool) (refs : ModuleRefs)
    (newNames : List String) : ModuleRefs :=
  ⟨refs.modules.filter live, survivorsObjs live refs.objs newNames⟩

/-- Whether a snapshot holds the tracked reference `a` under `n`. -/
def objsContains (r : ModuleRefs) (n : String) (a : Addr) : Bool :=
  match lookupA r.objs n with
  | some l => decide (a ∈ l)
  | none => false

theorem survivorsObjs_lookup (live : Addr → Bool) (objs : List (String × List Addr))
    (n : String) :
    ∀ newNames : List String,
      lookupA (survivorsObjs live objs newNames) n =
        if n ∈ newNames then (lookupA objs n).map (fun l => l.filter live) else none := by
  intro newNames
  induction newNames with
  | nil => simp [survivorsObjs, lookupA]
  | cons n0 rest ih =>
    cases h0 : lookupA objs n0 with
    | none =>
      have hred : survivorsObjs live objs (n0 :: rest) = survivorsObjs live objs rest := by
        simp [survivorsObjs, List.filterMap_cons, h0]
      rw [hred, ih]
      by_cases hn : n = n0
      · subst hn
        rw [h0]
        simp
      · simp [List.mem_cons, hn]
    | some l =>
      have hred : survivorsObjs live objs (n0 :: rest) =
          (n0, l.filter live) :: survivorsObjs live objs rest := by
        simp [survivorsObjs, List.filterMap_cons, h0]
      rw [hred, lookupA_cons]
      by_cases hn : n = n0
      · subst hn
        rw [if_pos rfl, if_pos (List.mem_cons_self _ _), h0]
        rfl
      · rw [if_neg (fun hh => hn hh.symm), ih]
        simp [List.mem_cons, hn]

/-- C8 counterexample: a stored tracked object that is still live but whose
name is absent from the new module's namespace is dropped from the returned
snapshot, so the snapshot does not contain exactly the entries whose weak
reference still resolves. -/
theorem claim_C8_counterexample :
    objsContains (⟨[], [("x", [5])]⟩ : ModuleRefs) "x" 5 = true
    ∧ objsContains
        (updateRefsWithNewModule (fun _ => true) ⟨[], [("x", [5])]⟩ []) "x" 5 = false := by
  constructor
  · decide
  · decide

/-- C8 amended: the returned snapshot contains exactly (a) the stored
module versions whose weak reference still resolves and (b), for each name
present in the new module's namespace, the stored tracked objects under
that name whose weak reference still resolves; live entries under names
absent from the new module are dropped as well, and no dead entry is ever
retained. -/
theorem claim_C8_amended (live : Addr → Bool) (refs : ModuleRefs)
    (newNames : List String) :
    (∀ m, m ∈ (updateRefsWithNewModule live refs newNames).modules ↔
        m ∈ refs.modules ∧ live m = true)
    ∧ (∀ n a, objsContains (updateRefsWithNewModule live refs newNames) n a = true ↔
        n ∈ newNames ∧ objsContains refs n a = true ∧ live a = true) := by
  constructor
  · intro m
    simp [updateRefsWithNewModule, List.mem_filter]
  · intro n a
    rw [objsContains]
    show (match lookupA (survivorsObjs live refs.objs newNames) n with
      | some l => decide (a ∈ l)
      | none => false) = true ↔ _
    rw [survivorsObjs_lookup]
    by_cases hn : n ∈ newNames
    · rw [if_pos hn]
      cases hobj : lookupA refs.objs n with
      | none => simp [objsContains, hobj]
      | some l =>
        rw [objsContains, hobj]
        simp [List.mem_filter, hn, and_comm]
    · rw [if_neg hn]
      simp [hn]

/-! ## User-namespace rebinding (`cell_autoreload.py` lines 229-245) -/

/-- What `_globals_to_update` records for a user-namespace name (the
`_ModuleInfo` dataclass): the module's fully-qualified name and the
identity of the module object that was bound to the name when recorded. -/
structure ModuleInfo where
  modName : String
  objId : Addr
deriving DecidableEq

/-- Embedding of the globals-rebinding loop of
`ModuleReloader._pre_run_cell_maybe_reload` (cell_autoreload.py lines
229-245): for each recorded name, if its module was reloaded AND the user
namespace still binds the name to the identical recorded object, rebind the
name to `sys.modules[info.name]` and refresh the record; otherwise leave
the binding and the record untouched. -/
def updateGlobals (sysMods : String → Addr) (mtu : List String) :
    List (String × ModuleInfo) → List (String × Addr) →
      List (String × Addr) × List (String × ModuleInfo)
  | [], ns => (ns, [])
  | (g, info) :: rest, ns =>
    if info.modName ∈ mtu ∧ lookupA ns g = some info.objId then
      ((updateGlobals sysMods mtu rest (setA ns g (sysMods info.modName))).1,
        (g, ⟨info.modName, sysMods info.modName⟩) ::
          (updateGlobals sysMods mtu rest (setA ns g (sysMods info.modName))).2)
    else
      ((updateGlobals sysMods mtu rest ns).1,
        (g, info) :: (updateGlobals sysMods mtu rest ns).2)

theorem updateGlobals_not_mem (sysMods : String → Addr) (mtu : List String) :
    ∀ (gtu : List (String × ModuleInfo)) (ns : List (String × Addr)) (x : String),
      x ∉ gtu.map Prod.fst →
      lookupA (updateGlobals sysMods mtu gtu ns).1 x = lookupA ns x := by
  intro gtu
  induction gtu with
  | nil => intro ns x _; rfl
  | cons p rest ih =>
    intro ns x hx
    obtain ⟨g, info⟩ := p
    rw [List.map_cons] at hx
    have hxg : x ≠ g := fun he => hx (he ▸ List.mem_cons_self _ _)
    have hxr : x ∉ rest.map Prod.fst := fun hh => hx (List.mem_cons_of_mem _ hh)
    by_cases hcond : info.modName ∈ mtu ∧ lookupA ns g = some info.objId
    · simp only [updateGlobals, if_pos hcond]
      rw [ih _ x hxr, lookupA_setA_other _ _ _ _ hxg]
    · simp only [updateGlobals, if_neg hcond]
      exact ih _ x hxr

/-- C9: a user-namespace name is rebound to the freshly reloaded module
exactly when its recorded module is in the reload set AND the name is still
bound to the identical recorded object; a name the user has rebound to
anything else (or whose module was not reloaded) is left completely
unchanged. -/
theorem claim_C9_global_rebinding (sysMods : String → Addr) (mtu : List String)
    (x : String) :
    ∀ (gtu : List (String × ModuleInfo)) (ns : List (String × Addr)),
      (gtu.map Prod.fst).Nodup →
      ((∀ info, (x, info) ∈ gtu → info.modName ∈ mtu →
          lookupA ns x = some info.objId →
          lookupA (updateGlobals sysMods mtu gtu ns).1 x = some (sysMods info.modName))
      ∧ ((∀ info, (x, info) ∈ gtu →
            ¬(info.modName ∈ mtu ∧ lookupA ns x = some info.objId)) →
          lookupA (updateGlobals sysMods mtu gtu ns).1 x = lookupA ns x)) := by
  intro gtu
  induction gtu with
  | nil =>
    intro ns _
    exact ⟨fun info hi => absurd hi (List.not_mem_nil _), fun _ => rfl⟩
  | cons p rest ih =>
    intro ns hnd
    obtain ⟨g, info0⟩ := p
    have hnd' : (rest.map Prod.fst).Nodup := (List.nodup_cons.mp (by simpa using hnd)).2
    have hg : g ∉ rest.map Prod.fst := (List.nodup_cons.mp (by simpa using hnd)).1
    constructor
    · intro info hi hmtu hns
      rcases List.mem_cons.mp hi with heq | hi
      · injection heq with h1 h2
        subst h1
        subst h2
        have hcond : info.modName ∈ mtu ∧ lookupA ns x = some info.objId := ⟨hmtu, hns⟩
        simp only [updateGlobals, if_pos hcond]
        rw [updateGlobals_not_mem sysMods mtu rest _ x hg, lookupA_setA_same]
      · have hx : x ∈ rest.map Prod.fst := List.mem_map_of_mem Prod.fst hi
        have hxg : x ≠ g := fun he => hg (he ▸ hx)
        by_cases hcond : info0.modName ∈ mtu ∧ lookupA ns g = some info0.objId
        · simp only [updateGlobals, if_pos hcond]
          apply (ih (setA ns g (sysMods info0.modName)) hnd').1 info hi hmtu
          rw [lookupA_setA_other _ _ _ _ hxg]
          exact hns
        · simp only [updateGlobals, if_neg hcond]
          exact (ih ns hnd').1 info hi hmtu hns
    · intro hnone
      by_cases hcond : info0.modName ∈ mtu ∧ lookupA ns g = some info0.objId
      · have hxg : x ≠ g := by
          intro he
          subst he
          exact hnone info0 (List.mem_cons_self _ _) hcond
        simp only [updateGlobals, if_pos hcond]
        rw [(ih (setA ns g (sysMods info0.modName)) hnd').2, lookupA_setA_other _ _ _ _ hxg]
        intro info hi
        rw [lookupA_setA_other _ _ _ _ hxg]
        exact hnone info (List.mem_cons_of_mem _ hi)
      · simp only [updateGlobals, if_neg hcond]
        exact (ih ns hnd').2 (fun info hi => hnone info (List.mem_cons_of_mem _ hi))

/-- Witness for C9 at a concrete namespace: `m` is still bound to the
recorded object of a reloaded module, `k` is not. -/
theorem claim_C9_global_rebinding_witness :
    (∀ info, ("m", info) ∈ [("m", ModuleInfo.mk "mod" 7), ("k", ModuleInfo.mk "mod" 8)] →
        info.modName ∈ ["mod"] →
        lookupA [("m", 7), ("k", 9)] "m" = some info.objId →
        lookupA (updateGlobals (fun _ => 42) ["mod"]
          [("m", ModuleInfo.mk "mod" 7), ("k", ModuleInfo.mk "mod" 8)]
          [("m", 7), ("k", 9)]).1 "m" = some ((fun _ => 42 : String → Addr) "mod"))
    ∧ ((∀ info, ("m", info) ∈ [("m", ModuleInfo.mk "mod" 7), ("k", ModuleInfo.mk "mod" 8)] →
          ¬(info.modName ∈ ["mod"] ∧ lookupA [("m", 7), ("k", 9)] "m" = some info.objId)) →
        lookupA (updateGlobals (fun _ => 42) ["mod"]
          [("m", ModuleInfo.mk "mod" 7), ("k", ModuleInfo.mk "mod" 8)]
          [("m", 7), ("k", 9)]).1 "m" = lookupA [("m", 7), ("k", 9)] "m") :=
  claim_C9_global_rebinding (fun _ => 42) ["mod"] "m"
    [("m", ModuleInfo.mk "mod" 7), ("k", ModuleInfo.mk "mod" 8)]
    [("m", 7), ("k", 9)] (by decide)

end Etils
